import Mathlib

/-!
Verification of the buildkite-logs-parquet log parser and query engine.

Strings are modelled as lists of byte values (`List Nat`, each entry < 256 in
practice), matching the Go code's byte-level scanning.  Go's `time.Time`
values produced by `time.Unix(0, ms*int64(time.Millisecond))` are modelled by
the 64-bit-wrapped nanosecond value (an `Int`); the absent timestamp (the zero
`time.Time`) is modelled by `none`, which is faithful because no `int64`
nanosecond count reaches the zero `time.Time` (year 1).
-/

set_option autoImplicit false

namespace BKLogs

/-- Two's-complement wrap of an integer into the signed 64-bit range,
modelling Go `int64` overflow (defined wrap-around behaviour in Go). -/
def wrap64 (x : Int) : Int :=
  (x + 2 ^ 63) % 2 ^ 64 - 2 ^ 63

/-- Boolean test that the byte list `p` is an initial segment of `s`,
modelling Go `bytes.HasPrefix` / `strings.HasPrefix`. -/
def startsWithB : List Nat → List Nat → Bool
  | [], _ => true
  | _ :: _, [] => false
  | a :: p, b :: s => a == b && startsWithB p s

/-- Boolean substring test: `hasSub p s` is true iff `p` occurs contiguously
inside `s`, modelling Go `strings.Contains s p`. -/
def hasSub : List Nat → List Nat → Bool
  | p, [] => p.isEmpty
  | p, b :: rest => startsWithB p (b :: rest) || hasSub p rest

/-- ASCII decimal digit test, modelling `c >= '0' && c <= '9'`. -/
def isDigit (b : Nat) : Bool :=
  48 ≤ b && b ≤ 57

/-- Numeric value of a list of ASCII digits, most significant first. -/
def digitsVal (ds : List Nat) : Int :=
  ds.foldl (fun acc d => acc * 10 + (Int.ofNat d - 48)) 0

/-- Model of Go `strconv.ParseInt(s, 10, 64)`: an optional sign, then one or
more decimal digits, with the signed value required to fit in `int64`;
`none` models a non-nil error (syntax or range). -/
def parseInt64 (s : List Nat) : Option Int :=
  match s with
  | [] => none
  | b :: rest =>
    let neg := b = 45
    let ds := if b = 43 ∨ b = 45 then rest else s
    if ds.isEmpty then none
    else if ds.all isDigit then
      let v : Int := if neg then -(digitsVal ds) else digitsVal ds
      if -(2 ^ 63) ≤ v ∧ v ≤ 2 ^ 63 - 1 then some v else none
    else none

/-- Model of `isANSIFinalChar` from scanner.go: ASCII letters end an ANSI
escape sequence. -/
def isANSIFinalChar (b : Nat) : Bool :=
  (65 ≤ b && b ≤ 90) || (97 ≤ b && b ≤ 122)

/-- Model of the inner loop of `StripANSI` after an `ESC [` introducer:
skip bytes until (and including) the first ANSI final character. -/
def skipCSI : List Nat → List Nat
  | [] => []
  | b :: rest => if isANSIFinalChar b then rest else skipCSI rest

/-- Model of the bounded lookahead of `StripANSI` for a bare `[` sequence
(ESC byte missing): scan at most `fuel` bytes (the Go code bounds the
lookahead to 9 bytes past the bracket); digits and `;` are parameter bytes;
an ANSI final character confirms the shape and the suffix after it is
returned; anything else rejects. -/
def lookANSI : Nat → List Nat → Option (List Nat)
  | _, [] => none
  | 0, _ => none
  | fuel + 1, b :: rest =>
    if (48 ≤ b ∧ b ≤ 57) ∨ b = 59 then lookANSI fuel rest
    else if isANSIFinalChar b then some rest
    else none

/-- Worker for `stripANSI`.  The Go code is an index-based loop over the byte
slice; `fuel` bounds the number of loop steps and is initialised to the byte
count, which suffices because every step consumes at least one byte. -/
def stripGo : Nat → List Nat → List Nat
  | 0, _ => []
  | _ + 1, [] => []
  | fuel + 1, b :: rest =>
    if b = 27 ∧ rest.head? = some 91 then stripGo fuel (skipCSI rest.tail)
    else if b = 91 then
      match lookANSI 9 rest with
      | some rest2 => stripGo fuel rest2
      | none => b :: stripGo fuel rest
    else b :: stripGo fuel rest

/-- Model of `ByteParser.StripANSI`: removes `ESC [ params letter` sequences,
and, via a bounded lookahead, bare `[ params letter` sequences whose ESC byte
is missing; all other bytes are copied through. -/
def stripANSI (s : List Nat) : List Nat :=
  stripGo s.length s

/-- Model of `LogEntry` from parser.go.  `timestamp` is `none` for the zero
`time.Time` (no timestamp) and `some n` for `time.Unix(0, n)` with `n` the
wrapped 64-bit nanosecond count. -/
structure LogEntry where
  timestamp : Option Int
  content : List Nat
  rawLine : List Nat
  group : List Nat
deriving DecidableEq

/-- Model of `hasOSCStart` from scanner.go: the line starts with the bytes
`ESC _ b k ; t =`. -/
def hasOSCStart (data : List Nat) : Bool :=
  if data.length < 7 then false
  else data.head? == some 27 && startsWithB [95, 98, 107, 59, 116, 61] (data.drop 1)

/-- Model of `findBEL` from scanner.go: index of the first BEL byte (7) at
position `start` or later, `none` if there is none. -/
def findBEL (data : List Nat) (start : Nat) : Option Nat :=
  match (data.drop start).findIdx? (fun b => b == 7) with
  | some j => some (start + j)
  | none => none

/-- Model of `ByteParser.ParseLine` from scanner.go: lines shorter than 10
bytes or without the OSC introducer or without a BEL terminator are returned
whole as content with no timestamp; otherwise the bytes between the
introducer and the first BEL must parse as a 64-bit integer (else error,
modelled as `none`), and the content is everything after the BEL. -/
def byteParseLine (line : List Nat) : Option LogEntry :=
  if line.length < 10 then
    some { timestamp := none, content := line, rawLine := line, group := [] }
  else if hasOSCStart line then
    match findBEL line 7 with
    | none => some { timestamp := none, content := line, rawLine := line, group := [] }
    | some tEnd =>
      match parseInt64 ((line.drop 7).take (tEnd - 7)) with
      | none => none
      | some ms =>
        some { timestamp := some (wrap64 (ms * 1000000)),
               content := line.drop (tEnd + 1), rawLine := line, group := [] }
  else
    some { timestamp := none, content := line, rawLine := line, group := [] }

/-- Model of `LogEntry.CleanContent`: the content with ANSI codes stripped. -/
def entryCleanContent (e : LogEntry) : List Nat :=
  stripANSI e.content

/-- Model of `LogEntry.IsCommand`: cleaned content starts with `$ `. -/
def entryIsCommand (e : LogEntry) : Bool :=
  startsWithB [36, 32] (entryCleanContent e)

/-- Model of `LogEntry.IsGroup`: cleaned content starts with one of the
three-byte markers `~~~`, `---` or `+++`. -/
def entryIsGroup (e : LogEntry) : Bool :=
  startsWithB [126, 126, 126] (entryCleanContent e) ||
    startsWithB [45, 45, 45] (entryCleanContent e) ||
    startsWithB [43, 43, 43] (entryCleanContent e)

/-- Model of `LogEntry.IsProgress`: the raw content must contain the bytes
`[ K` and the cleaned content must contain `objects`, `deltas` or `%`. -/
def entryIsProgress (e : LogEntry) : Bool :=
  if !hasSub [91, 75] e.content then false
  else
    hasSub [111, 98, 106, 101, 99, 116, 115] (entryCleanContent e) ||
      hasSub [100, 101, 108, 116, 97, 115] (entryCleanContent e) ||
      hasSub [37] (entryCleanContent e)

/-- Model of `Parser.ParseLine` from parser.go: `g` is the parser's
`currentGroup` state.  On a byte-parse error nothing is returned and the
state is unchanged; a group-header line first updates the state to its own
cleaned content; the returned record is stamped with the (possibly updated)
state. -/
def parseLineTracked (g : List Nat) (line : List Nat) : Option LogEntry × List Nat :=
  match byteParseLine line with
  | none => (none, g)
  | some e =>
    let g2 := if entryIsGroup e then entryCleanContent e else g
    (some { e with group := g2 }, g2)

/-- Run the stateful parser over a list of lines from state `g`, yielding one
`Option LogEntry` per line (`none` for a parse error, as the streaming
iterator yields an error for that line) and the final tracker state. -/
def parseAll (g : List Nat) : List (List Nat) → List (Option LogEntry) × List Nat
  | [] => ([], g)
  | l :: ls =>
    let st := parseLineTracked g l
    let rest := parseAll st.2 ls
    (st.1 :: rest.1, rest.2)

/-- The cleaned content a line contributes to the group tracker: `some c`
when the line byte-parses successfully and is classified as a group header
with cleaned content `c`, otherwise `none`. -/
def headerClean (l : List Nat) : Option (List Nat) :=
  match byteParseLine l with
  | some e => if entryIsGroup e then some (entryCleanContent e) else none
  | none => none

/-- Spec-side predicate (from the claim's words): the field parses as a
base-10 non-negative integer, i.e. it is a nonempty string of decimal
digits. -/
def nonNegIntB (s : List Nat) : Bool :=
  !s.isEmpty && s.all isDigit

/-- C1: the minimal well-formed frame `ESC _bk;t=1 BEL` (9 bytes: introducer,
the integer field `1`, the BEL terminator, empty trailing content) is NOT
parsed as claimed: `ByteParser.ParseLine` returns a record with no timestamp
whose content is the entire line, because its short-line guard requires at
least 10 bytes while its own comment names this 9-byte line as the minimum.
The conjuncts exhibit that the line is well-formed in the claim's sense
(introducer present, BEL at index 8, field `1` parsing as the integer 1). -/
theorem c1_min_frame_divergence :
    hasOSCStart [27, 95, 98, 107, 59, 116, 61, 49, 7] = true ∧
    findBEL [27, 95, 98, 107, 59, 116, 61, 49, 7] 7 = some 8 ∧
    parseInt64 [49] = some 1 ∧
    byteParseLine [27, 95, 98, 107, 59, 116, 61, 49, 7] =
      some { timestamp := none,
             content := [27, 95, 98, 107, 59, 116, 61, 49, 7],
             rawLine := [27, 95, 98, 107, 59, 116, 61, 49, 7], group := [] } := by
  decide

/-- C2 counterexample: the line `ESC _bk;t=-5 BEL x` has the introducer at
its start, a terminator (BEL at index 9), and a field `-5` that does not
parse as a base-10 non-negative integer, yet `ByteParser.ParseLine` returns
a record (timestamp `-5` ms) instead of the error the claim requires,
because Go `strconv.ParseInt` accepts a sign. -/
theorem c2_negative_timestamp_accepted :
    hasOSCStart [27, 95, 98, 107, 59, 116, 61, 45, 53, 7, 120] = true ∧
    findBEL [27, 95, 98, 107, 59, 116, 61, 45, 53, 7, 120] 7 = some 9 ∧
    (([27, 95, 98, 107, 59, 116, 61, 45, 53, 7, 120].drop 7).take 2 = [45, 53] ∧
      nonNegIntB [45, 53] = false) ∧
    byteParseLine [27, 95, 98, 107, 59, 116, 61, 45, 53, 7, 120] =
      some { timestamp := some (-5000000),
             content := [120],
             rawLine := [27, 95, 98, 107, 59, 116, 61, 45, 53, 7, 120], group := [] } := by
  decide

/-- C2 (amended): `ByteParser.ParseLine` errors iff the line is at least 10
bytes long, starts with the introducer, has a BEL terminator at index 7 or
later, and the bytes between introducer and terminator fail Go
`strconv.ParseInt(·, 10, 64)` (optional sign, one or more digits, value in
the signed 64-bit range); in every other case it returns a record, and when
the short-line guard fires, the introducer is absent, or no terminator is
found, the record has no timestamp and its content is the whole line. -/
theorem c2_error_iff :
    ∀ line : List Nat,
      (byteParseLine line = none ↔
        (10 ≤ line.length ∧ hasOSCStart line = true ∧
          ∃ t, findBEL line 7 = some t ∧
            parseInt64 ((line.drop 7).take (t - 7)) = none)) ∧
      ((line.length < 10 ∨ hasOSCStart line = false ∨ findBEL line 7 = none) →
        byteParseLine line =
          some { timestamp := none, content := line, rawLine := line, group := [] }) := by
  intro line
  unfold byteParseLine
  by_cases hlen : line.length < 10
  · simp [hlen]
  · simp only [if_neg hlen]
    by_cases hosc : hasOSCStart line
    · simp only [if_pos hosc]
      cases hbel : findBEL line 7 with
      | none => simp [hbel, hosc]
      | some t =>
        cases hp : parseInt64 ((line.drop 7).take (t - 7)) with
        | none =>
          simp [hbel, hp, hosc]
          omega
        | some ms =>
          simp [hbel, hp, hosc]
          omega
    · simp [hosc, hlen]

/-- Witness for the amended C2: a plain line shorter than 10 bytes comes
back whole with no timestamp. -/
theorem c2_error_iff_witness :
    byteParseLine [97, 98, 99] =
      some { timestamp := none, content := [97, 98, 99],
             rawLine := [97, 98, 99], group := [] } :=
  (c2_error_iff [97, 98, 99]).2 (Or.inl (by decide))

theorem findSome_concat {α β : Type} (f : α → Option β) (x : α) :
    ∀ a : List α,
      (a ++ [x]).findSome? f =
        (match a.findSome? f with
         | some v => some v
         | none => f x) := by
  intro a
  induction a with
  | nil =>
    simp only [List.nil_append, List.findSome?]
    cases f x <;> rfl
  | cons h t ih =>
    simp only [List.cons_append, List.findSome?]
    cases f h with
    | none => simpa using ih
    | some v => simp

theorem parseLineTracked_state (g l : List Nat) :
    (parseLineTracked g l).2 = (headerClean l).getD g := by
  unfold parseLineTracked headerClean
  cases byteParseLine l with
  | none => rfl
  | some e =>
    by_cases hg : entryIsGroup e
    · simp [hg]
    · simp [hg]

theorem parseAll_group_eq (ls : List (List Nat)) :
    ∀ (g : List Nat) (i : Nat) (e : LogEntry),
      ((parseAll g ls).1)[i]? = some (some e) →
      e.group = (((ls.take (i + 1)).reverse.findSome? headerClean).getD g) := by
  induction ls with
  | nil => intro g i e h; simp [parseAll] at h
  | cons l ls ih =>
    intro g i e h
    cases i with
    | zero =>
      simp only [parseAll, List.getElem?_cons_zero, Option.some.injEq] at h
      unfold parseLineTracked at h
      cases hb : byteParseLine l with
      | none => rw [hb] at h; exact absurd h (by simp)
      | some e0 =>
        rw [hb] at h
        have he : e = { e0 with group := if entryIsGroup e0 then entryCleanContent e0 else g } := by
          injection h with h2
          exact h2.symm
        subst he
        by_cases hg : entryIsGroup e0
        · simp [headerClean, hb, hg]
        · simp [headerClean, hb, hg]
    | succ i =>
      simp only [parseAll, List.getElem?_cons_succ] at h
      have hrec := ih (parseLineTracked g l).2 i e h
      rw [parseLineTracked_state] at hrec
      have htake : ((l :: ls).take (i + 1 + 1)).reverse = (ls.take (i + 1)).reverse ++ [l] := by
        simp [List.take_succ_cons]
      rw [htake, findSome_concat]
      cases hf : (ls.take (i + 1)).reverse.findSome? headerClean with
      | none =>
        rw [hf] at hrec
        simpa using hrec
      | some v =>
        rw [hf] at hrec
        simpa using hrec

/-- C3: for any sequence of lines fed to `Parser.ParseLine` from a fresh
parser, (1) every successfully returned record's group is the cleaned
content of the most recent group-header line at or before it (empty when no
header precedes it, and a header line's own group is its own cleaned
content, since the search includes the record's own line); (2) the tracker
state is unchanged by any line that is not a successfully parsed group
header; (3) a group-header line's record is stamped with its own cleaned
content. -/
theorem c3_group_tracking :
    (∀ (ls : List (List Nat)) (i : Nat) (e : LogEntry),
        ((parseAll [] ls).1)[i]? = some (some e) →
        e.group = (((ls.take (i + 1)).reverse.findSome? headerClean).getD [])) ∧
    (∀ g l, headerClean l = none → (parseLineTracked g l).2 = g) ∧
    (∀ (g l : List Nat) (e : LogEntry),
        (parseLineTracked g l).1 = some e → entryIsGroup e = true →
        e.group = entryCleanContent e) := by
  refine ⟨fun ls i e h => parseAll_group_eq ls [] i e h, ?_, ?_⟩
  · intro g l h
    rw [parseLineTracked_state, h]
    rfl
  · intro g l e h hg
    unfold parseLineTracked at h
    cases hb : byteParseLine l with
    | none => rw [hb] at h; exact absurd h (by simp)
    | some e0 =>
      rw [hb] at h
      have he : e = { e0 with group := if entryIsGroup e0 then entryCleanContent e0 else g } := by
        injection h with h2
        exact h2.symm
      subst he
      have hg0 : entryIsGroup e0 = true := hg
      simp [hg0, entryCleanContent]

/-- Witness for C3: two plain lines, the first a `~~~` group header; the
second record is stamped with the header's cleaned content. -/
theorem c3_group_tracking_witness :
    ({ timestamp := none, content := [120], rawLine := [120],
       group := [126, 126, 126, 65] } : LogEntry).group =
      (((([[126, 126, 126, 65], [120]] : List (List Nat)).take 2).reverse.findSome?
          headerClean).getD []) :=
  c3_group_tracking.1 [[126, 126, 126, 65], [120]] 1
    { timestamp := none, content := [120], rawLine := [120], group := [126, 126, 126, 65] }
    (by decide)

/-- C4 counterexample: on the input `[9[Km` the first strip pass keeps the
bracket at position 0 (its lookahead hits the second bracket) but removes
the `[K` shape, leaving `[9m` — which a second pass then removes entirely.
So `StripANSI (StripANSI s) ≠ StripANSI s` for `s = [9[Km`. -/
theorem c4_not_idempotent :
    stripANSI [91, 57, 91, 75, 109] = [91, 57, 109] ∧
    stripANSI [91, 57, 109] = [] ∧
    stripANSI (stripANSI [91, 57, 91, 75, 109]) ≠ stripANSI [91, 57, 91, 75, 109] := by
  decide

theorem stripGo_no_bracket :
    ∀ (f : Nat) (t : List Nat), t.length ≤ f → (91 : Nat) ∉ t → stripGo f t = t := by
  intro f
  induction f with
  | zero =>
    intro t hlen _
    cases t with
    | nil => rfl
    | cons b rest => simp at hlen
  | succ f ih =>
    intro t hlen hmem
    cases t with
    | nil => rfl
    | cons b rest =>
      have hb : b ≠ 91 := fun h => hmem (h ▸ List.mem_cons_self b rest)
      have hrest : (91 : Nat) ∉ rest := fun h => hmem (List.mem_cons_of_mem b h)
      have hlen2 : rest.length ≤ f := by
        simp only [List.length_cons] at hlen
        omega
      have hcond : ¬(b = 27 ∧ rest.head? = some 91) := by
        rintro ⟨_, h2⟩
        cases rest with
        | nil => simp at h2
        | cons c r2 =>
          simp only [List.head?_cons, Option.some.injEq] at h2
          exact hrest (h2 ▸ List.mem_cons_self c r2)
      simp only [stripGo, if_neg hcond, if_neg hb]
      exact congrArg (b :: ·) (ih rest hlen2 hrest)

/-- C4 (amended): `StripANSI` is the identity on strings containing no `[`
byte, and hence idempotent on every input whose stripped output contains no
`[` byte.  Full idempotence fails (see the counterexample): re-stripping can
remove bracket shapes that the first pass exposed. -/
theorem c4_strip_idempotent_amended :
    (∀ s : List Nat, (91 : Nat) ∉ s → stripANSI s = s) ∧
    (∀ s : List Nat, (91 : Nat) ∉ stripANSI s → stripANSI (stripANSI s) = stripANSI s) := by
  constructor
  · intro s h
    exact stripGo_no_bracket s.length s le_rfl h
  · intro s h
    exact stripGo_no_bracket (stripANSI s).length (stripANSI s) le_rfl h

/-- Witness for the amended C4 at the bracket-free input `hi`. -/
theorem c4_strip_idempotent_amended_witness :
    stripANSI (stripANSI [104, 105]) = stripANSI [104, 105] ∧
    stripANSI [104, 105] = [104, 105] :=
  ⟨c4_strip_idempotent_amended.2 [104, 105] (by decide),
   c4_strip_idempotent_amended.1 [104, 105] (by decide)⟩

/-- Specification-side substring occurrence: `p` occurs contiguously in `s`. -/
def SubstrOcc (p s : List Nat) : Prop :=
  ∃ l r, s = l ++ p ++ r

theorem startsWithB_iff : ∀ p s : List Nat, startsWithB p s = true ↔ ∃ t, s = p ++ t := by
  intro p
  induction p with
  | nil =>
    intro s
    simp [startsWithB]
  | cons a p ih =>
    intro s
    cases s with
    | nil => simp [startsWithB]
    | cons b t =>
      simp only [startsWithB, Bool.and_eq_true, beq_iff_eq]
      constructor
      · rintro ⟨rfl, h⟩
        obtain ⟨u, rfl⟩ := (ih t).1 h
        exact ⟨u, rfl⟩
      · rintro ⟨u, hu⟩
        injection hu with h1 h2
        subst h1
        exact ⟨rfl, (ih t).2 ⟨u, h2⟩⟩

theorem hasSub_iff : ∀ p s : List Nat, hasSub p s = true ↔ SubstrOcc p s := by
  intro p s
  induction s with
  | nil =>
    simp only [hasSub, List.isEmpty_iff, SubstrOcc]
    constructor
    · rintro rfl
      exact ⟨[], [], rfl⟩
    · rintro ⟨l, r, h⟩
      have := h.symm
      simp only [List.append_eq_nil] at this
      exact this.1.2
  | cons b rest ih =>
    simp only [hasSub, Bool.or_eq_true, startsWithB_iff, ih, SubstrOcc]
    constructor
    · rintro (⟨t, ht⟩ | ⟨l, r, hr⟩)
      · exact ⟨[], t, by simpa using ht⟩
      · exact ⟨b :: l, r, by simp [hr]⟩
    · rintro ⟨l, r, h⟩
      cases l with
      | nil =>
        exact Or.inl ⟨r, by simpa using h⟩
      | cons c l2 =>
        simp only [List.cons_append, List.cons.injEq] at h
        exact Or.inr ⟨l2, r, h.2⟩

instance (p s : List Nat) : Decidable (SubstrOcc p s) :=
  decidable_of_iff (hasSub p s = true) (hasSub_iff p s)

/-- C5: `IsProgress` is true exactly when the raw content contains the bytes
`[K` AND the cleaned content contains `objects`, `deltas` or `%`; neither
condition alone suffices, witnessed by a record whose content is just `[K`
(cleaned to nothing, so no keyword survives) and a record `50%` (keyword
present but no erase sequence). -/
theorem c5_is_progress :
    (∀ e : LogEntry,
        entryIsProgress e = true ↔
          (SubstrOcc [91, 75] e.content ∧
            (SubstrOcc [111, 98, 106, 101, 99, 116, 115] (entryCleanContent e) ∨
              SubstrOcc [100, 101, 108, 116, 97, 115] (entryCleanContent e) ∨
              SubstrOcc [37] (entryCleanContent e)))) ∧
    (SubstrOcc [91, 75] ([91, 75] : List Nat) ∧
      entryIsProgress { timestamp := none, content := [91, 75], rawLine := [91, 75], group := [] } = false) ∧
    (SubstrOcc [37] (entryCleanContent { timestamp := none, content := [53, 48, 37], rawLine := [53, 48, 37], group := [] }) ∧
      entryIsProgress { timestamp := none, content := [53, 48, 37], rawLine := [53, 48, 37], group := [] } = false) := by
  refine ⟨?_, by decide, by decide⟩
  intro e
  unfold entryIsProgress
  by_cases h : hasSub [91, 75] e.content
  · have hs : SubstrOcc [91, 75] e.content := (hasSub_iff _ _).1 h
    simp [h, hasSub_iff, hs, or_assoc]
  · have hs : ¬SubstrOcc [91, 75] e.content := fun hc => h ((hasSub_iff _ _).2 hc)
    simp [h, hs]

/-- Model of `ParquetLogEntry` from query.go: the persisted record shape. -/
structure ParquetLogEntry where
  timestamp : Int
  content : List Nat
  group : List Nat
  hasTime : Bool
  isCommand : Bool
  isGroup : Bool
  isProgress : Bool
  rawLineSize : Int
deriving DecidableEq

/-- Model of Go `strings.ToLower` on a byte: only the ASCII range matters
here (the lower-casing is applied symmetrically to pattern and group, and
escape/marker bytes are pure ASCII). -/
def toLowerByte (b : Nat) : Nat :=
  if 65 ≤ b ∧ b ≤ 90 then b + 32 else b

/-- `strings.ToLower` over a byte string. -/
def lowerL (s : List Nat) : List Nat :=
  s.map toLowerByte

/-- The literal text used for records with an empty group: `<no group>`. -/
def noGroupName : List Nat :=
  [60, 110, 111, 32, 103, 114, 111, 117, 112, 62]

/-- The effective group name used for matching and aggregation: the record's
group, or `<no group>` when that is empty. -/
def effName (e : ParquetLogEntry) : List Nat :=
  if e.group = [] then noGroupName else e.group

/-- The per-record test of `FilterByGroup` / `FilterByGroupIter` from
query.go: case-insensitive substring match of the pattern against the
effective group name. -/
def matchEntry (pat : List Nat) (e : ParquetLogEntry) : Bool :=
  hasSub (lowerL pat) (lowerL (effName e))

/-- Model of `FilterByGroup` from query.go: keep exactly the matching
entries, in order. -/
def FilterByGroupM (es : List ParquetLogEntry) (pat : List Nat) : List ParquetLogEntry :=
  es.filter (matchEntry pat)

/-- Model of `FilterByGroupIter` from query.go: errors in the stream are
passed through, matching records are yielded, others are dropped. -/
def filterByGroupIterM :
    List (Except Unit ParquetLogEntry) → List Nat → List (Except Unit ParquetLogEntry)
  | [], _ => []
  | Except.error u :: rest, pat => Except.error u :: filterByGroupIterM rest pat
  | Except.ok e :: rest, pat =>
    if matchEntry pat e then Except.ok e :: filterByGroupIterM rest pat
    else filterByGroupIterM rest pat

theorem hasSub_eq_decide (p s : List Nat) : hasSub p s = decide (SubstrOcc p s) := by
  by_cases h2 : SubstrOcc p s
  · rw [(hasSub_iff p s).2 h2, decide_eq_true h2]
  · have h3 : hasSub p s = false := by
      rw [Bool.eq_false_iff]
      intro hc
      exact h2 ((hasSub_iff p s).1 hc)
    rw [h3, decide_eq_false h2]

/-- C6: the group filter yields a record iff the lower-cased pattern occurs
as a substring of the lower-cased effective group name (empty group matched
as the literal `<no group>`); the output is a sublist of the input, so
relative order is preserved; and the streaming filter agrees with the
one-shot filter on an error-free stream. -/
theorem c6_filter_by_group :
    ∀ (es : List ParquetLogEntry) (pat : List Nat),
      FilterByGroupM es pat =
        es.filter (fun e => decide (SubstrOcc (lowerL pat) (lowerL (effName e)))) ∧
      (FilterByGroupM es pat).Sublist es ∧
      filterByGroupIterM (es.map Except.ok) pat = (FilterByGroupM es pat).map Except.ok := by
  intro es pat
  refine ⟨?_, List.filter_sublist es, ?_⟩
  · unfold FilterByGroupM
    apply List.filter_congr
    intro e _
    rw [matchEntry, hasSub_eq_decide]
  · induction es with
    | nil => rfl
    | cons e rest ih =>
      by_cases h : matchEntry pat e
      · simp [filterByGroupIterM, FilterByGroupM, List.filter_cons, h, ih]
      · simp [filterByGroupIterM, FilterByGroupM, List.filter_cons, h, ih]

/-- Model of the streaming full scan (`readParquetFileStreamingIter`) over a
readable Parquet file whose rows, in storage order, are `rows`: every row is
yielded once, in order, with no error.  The abstract column-store collaborator
(spec section 6) is modelled as the list of rows it holds. -/
def fullScanM (rows : List ParquetLogEntry) : List (Except Unit ParquetLogEntry) :=
  rows.map Except.ok

/-- Model of `ParquetReader.SeekToRow` / `readParquetFileFromRowIter`: if the
requested start row is at or beyond the file's total row count the iterator
yields exactly one error and stops (the guard in the source); otherwise the
store's native seek positions the reader at `startRow` and all remaining
rows are streamed in storage order. -/
def seekToRowM (rows : List ParquetLogEntry) (startRow : Nat) :
    List (Except Unit ParquetLogEntry) :=
  if rows.length ≤ startRow then [Except.error ()]
  else (rows.drop startRow).map Except.ok

/-- C7: seeking at or past the total row count yields exactly one error and
no records; seeking below it yields exactly the full scan with the first
`startRow` records skipped; and consuming `n` records after seeking to row 0
gives the first `n` records of a full scan. -/
theorem c7_seek_to_row :
    ∀ (rows : List ParquetLogEntry) (startRow : Nat),
      (rows.length ≤ startRow → seekToRowM rows startRow = [Except.error ()]) ∧
      (startRow < rows.length →
        seekToRowM rows startRow = (fullScanM rows).drop startRow) ∧
      (0 < rows.length →
        ∀ n, (seekToRowM rows 0).take n = (fullScanM rows).take n) := by
  intro rows startRow
  refine ⟨fun h => by simp [seekToRowM, h], fun h => ?_, fun h n => ?_⟩
  · rw [seekToRowM, if_neg (by omega), fullScanM, List.map_drop]
  · rw [seekToRowM, if_neg (by omega)]
    simp [fullScanM]

/-- Witness for C7 on a two-row file: seek to 5 errors, seek to 1 drops the
first record, seek to 0 then take 1 gives the first record of a full scan. -/
theorem c7_seek_to_row_witness :
    seekToRowM [⟨1, [97], [], true, false, false, false, 1⟩,
                ⟨2, [98], [], true, false, false, false, 1⟩] 5 = [Except.error ()] ∧
    seekToRowM [⟨1, [97], [], true, false, false, false, 1⟩,
                ⟨2, [98], [], true, false, false, false, 1⟩] 1 =
      (fullScanM [⟨1, [97], [], true, false, false, false, 1⟩,
                  ⟨2, [98], [], true, false, false, false, 1⟩]).drop 1 ∧
    (seekToRowM [⟨1, [97], [], true, false, false, false, 1⟩,
                 ⟨2, [98], [], true, false, false, false, 1⟩] 0).take 1 =
      (fullScanM [⟨1, [97], [], true, false, false, false, 1⟩,
                  ⟨2, [98], [], true, false, false, false, 1⟩]).take 1 :=
  ⟨(c7_seek_to_row _ 5).1 (by decide),
   (c7_seek_to_row _ 1).2.1 (by decide),
   (c7_seek_to_row _ 0).2.2 (by decide) 1⟩

/-- Presence of the optional columns in a Parquet file's schema (the two
required columns, timestamp and content, must be present or reading fails
before any row is decoded). -/
structure Schema where
  hasGroup : Bool
  hasHasTime : Bool
  hasIsCmd : Bool
  hasIsGrp : Bool
  hasIsProg : Bool
  hasRawSize : Bool
deriving DecidableEq

/-- One stored row as handed over by the column store: each cell is `none`
when the stored value is null. -/
structure Row where
  timestamp : Option Int
  content : Option (List Nat)
  group : Option (List Nat)
  hasTime : Option Bool
  isCmd : Option Bool
  isGrp : Option Bool
  isProg : Option Bool
  rawSize : Option Int
deriving DecidableEq

/-- Per-row conversion of `convertRecordToEntries` (the batch path in
query.go): null or absent columns leave the zero value in the entry. -/
def convertRowA (sc : Schema) (r : Row) : ParquetLogEntry :=
  { timestamp := match r.timestamp with | none => 0 | some v => v,
    content := match r.content with | none => [] | some c => c,
    group := if sc.hasGroup then (match r.group with | none => [] | some g => g) else [],
    hasTime := if sc.hasHasTime then (match r.hasTime with | none => false | some b => b) else false,
    isCommand := if sc.hasIsCmd then (match r.isCmd with | none => false | some b => b) else false,
    isGroup := if sc.hasIsGrp then (match r.isGrp with | none => false | some b => b) else false,
    isProgress := if sc.hasIsProg then (match r.isProg with | none => false | some b => b) else false,
    rawLineSize := if sc.hasRawSize then (match r.rawSize with | none => 0 | some v => v) else 0 }

/-- Per-row conversion of `convertRecordToEntriesIterStreaming` (the
streaming path in query.go); the row-level logic is the same as the batch
path's. -/
def convertRowB (sc : Schema) (r : Row) : ParquetLogEntry :=
  { timestamp := match r.timestamp with | none => 0 | some v => v,
    content := match r.content with | none => [] | some c => c,
    group := if sc.hasGroup then (match r.group with | none => [] | some g => g) else [],
    hasTime := if sc.hasHasTime then (match r.hasTime with | none => false | some b => b) else false,
    isCommand := if sc.hasIsCmd then (match r.isCmd with | none => false | some b => b) else false,
    isGroup := if sc.hasIsGrp then (match r.isGrp with | none => false | some b => b) else false,
    isProgress := if sc.hasIsProg then (match r.isProg with | none => false | some b => b) else false,
    rawLineSize := if sc.hasRawSize then (match r.rawSize with | none => 0 | some v => v) else 0 }

/-- Split a list into consecutive batches of `n` elements (last batch may be
shorter), modelling how the column store hands rows over in row-group/batch
order (`array.NewTableReader(table, 1000)` on the batch path,
`GetRecordReader` with `BatchSize: 5000` on the streaming path). -/
def chunk {α : Type} : Nat → List α → List (List α)
  | _, [] => []
  | 0, _ :: _ => []
  | n + 1, a :: as => ((a :: as).take (n + 1)) :: chunk (n + 1) ((a :: as).drop (n + 1))
termination_by _ l => l.length
decreasing_by
  simp only [List.length_drop, List.length_cons]
  omega

/-- Model of `ParquetReader.ReadEntries` / `readParquetFile`: the whole
table is read, then converted batch by batch (1000 rows per batch) with the
per-batch entry lists concatenated. -/
def readEntriesM (sc : Schema) (rows : List Row) : List ParquetLogEntry :=
  ((chunk 1000 rows).map (fun batch => batch.map (convertRowA sc))).flatten

/-- Model of `ParquetReader.ReadEntriesIter` /
`readParquetFileStreamingIter`: rows are streamed in batches of 5000; every
row of every batch is yielded in order, each paired with a nil error. -/
def readEntriesIterM (sc : Schema) (rows : List Row) : List (Except Unit ParquetLogEntry) :=
  ((chunk 5000 rows).map (fun batch => batch.map (fun r => Except.ok (convertRowB sc r)))).flatten

/-- The records collected by running an iterator to completion and keeping
every successfully yielded record. -/
def collectRecords (xs : List (Except Unit ParquetLogEntry)) : List ParquetLogEntry :=
  xs.filterMap (fun x => match x with | Except.ok e => some e | Except.error _ => none)

theorem chunk_flatten {α : Type} :
    ∀ (m : Nat) (l : List α), 0 < m → (chunk m l).flatten = l := by
  intro m l
  induction m, l using chunk.induct with
  | case1 x =>
    intro _
    simp [chunk]
  | case2 head tail =>
    intro h
    omega
  | case3 n a as ih =>
    intro _
    rw [chunk]
    simp only [List.flatten_cons]
    rw [ih (by omega)]
    exact List.take_append_drop (n + 1) (a :: as)

theorem chunk_map_flatten {α β : Type} (f : α → β) (m : Nat) (l : List α) (h : 0 < m) :
    ((chunk m l).map (fun batch => batch.map f)).flatten = l.map f := by
  rw [← List.map_flatten, chunk_flatten m l h]

/-- C8: running the streaming full-scan iterator to completion and
collecting every yielded record gives exactly the records, in the same
order, of the one-shot read-all path over the same file, for every schema
and row content. -/
theorem c8_stream_batch_equivalence :
    ∀ (sc : Schema) (rows : List Row),
      collectRecords (readEntriesIterM sc rows) = readEntriesM sc rows := by
  intro sc rows
  have hconv : convertRowB sc = convertRowA sc := by
    funext r
    rfl
  rw [readEntriesIterM, readEntriesM]
  rw [chunk_map_flatten (fun r => Except.ok (convertRowB sc r)) 5000 rows (by omega)]
  rw [chunk_map_flatten (convertRowA sc) 1000 rows (by omega)]
  rw [hconv]
  induction rows with
  | nil => rfl
  | cons r rs ih =>
    simp only [List.map_cons, collectRecords, List.filterMap_cons] at ih ⊢
    rw [ih]

/-- C10: `Parser.ParseLine` is atomic in the tracker state: a line on which
the byte parser errors yields only the error and leaves the parser exactly
as if the line had never been parsed, so all subsequent records and the
final state coincide with those of the run without the erroneous line. -/
theorem c10_error_atomicity :
    ∀ (g line : List Nat) (xs : List (List Nat)),
      byteParseLine line = none →
      parseAll g (line :: xs) = (none :: (parseAll g xs).1, (parseAll g xs).2) := by
  intro g line xs h
  simp [parseAll, parseLineTracked, h]

/-- Witness for C10: the 10-byte line `ESC _bk;t=xx BEL` is a malformed
frame (non-numeric timestamp field); parsing it before a plain line is the
same as never parsing it, except for the yielded error. -/
theorem c10_error_atomicity_witness :
    parseAll [103] [[27, 95, 98, 107, 59, 116, 61, 120, 120, 7], [97]] =
      (none :: (parseAll [103] [[97]]).1, (parseAll [103] [[97]]).2) :=
  c10_error_atomicity [103] [27, 95, 98, 107, 59, 116, 61, 120, 120, 7] [[97]] (by decide)

/-- The `time.Time` stored for a persisted entry by `ListGroups`
(`time.Unix(0, entry.Timestamp*int64(time.Millisecond))`), as its epoch
nanosecond count: the millisecond value times 10^6, wrapped to `int64`
because the Go multiplication overflows for large magnitudes. -/
def entryNs (e : ParquetLogEntry) : Int :=
  wrap64 (e.timestamp * 1000000)

/-- Model of `GroupInfo` from query.go.  `firstSeen` and `lastSeen` hold the
epoch nanosecond count of the stored `time.Time`. -/
structure GroupInfo where
  name : List Nat
  entryCount : Nat
  firstSeen : Int
  lastSeen : Int
  commands : Nat
  progress : Nat
deriving DecidableEq

/-- The fresh `GroupInfo` created by `ListGroups` when a group name is first
seen: counts zero, first/last seen at the creating entry's time. -/
def initInfo (n : List Nat) (e : ParquetLogEntry) : GroupInfo :=
  { name := n, entryCount := 0, firstSeen := entryNs e, lastSeen := entryNs e,
    commands := 0, progress := 0 }

/-- The per-entry update of `ListGroups`: bump the count, pull first/last
seen outward (strict `Before`/`After` comparisons), and count the command
and progress flags. -/
def updInfo (e : ParquetLogEntry) (inf : GroupInfo) : GroupInfo :=
  { inf with
    entryCount := inf.entryCount + 1,
    firstSeen := if entryNs e < inf.firstSeen then entryNs e else inf.firstSeen,
    lastSeen := if inf.lastSeen < entryNs e then entryNs e else inf.lastSeen,
    commands := inf.commands + (if e.isCommand then 1 else 0),
    progress := inf.progress + (if e.isProgress then 1 else 0) }

/-- One iteration of the `ListGroups` loop.  The Go `map[string]*GroupInfo`
is modelled as a list of summaries keyed by name, in insertion order. -/
def processEntry (acc : List GroupInfo) (e : ParquetLogEntry) : List GroupInfo :=
  if acc.any (fun i => i.name == effName e) then
    acc.map (fun i => if i.name = effName e then updInfo e i else i)
  else
    acc ++ [updInfo e (initInfo (effName e) e)]

/-- Insert a summary into a list sorted by ascending `firstSeen`. -/
def insertByFirst (g : GroupInfo) : List GroupInfo → List GroupInfo
  | [] => [g]
  | h :: t => if g.firstSeen ≤ h.firstSeen then g :: h :: t else h :: insertByFirst g t

/-- Sort summaries by ascending `firstSeen`.  Go collects the map values in
unspecified iteration order and sorts them with an unstable sort; only the
resulting order-by-`firstSeen` property is specified, which this
deterministic insertion sort shares. -/
def sortByFirst : List GroupInfo → List GroupInfo
  | [] => []
  | h :: t => insertByFirst h (sortByFirst t)

/-- Model of `ListGroups` from query.go: one pass accumulating per-group
summaries, then sort by each group's first-seen time ascending. -/
def ListGroupsM (es : List ParquetLogEntry) : List GroupInfo :=
  sortByFirst (es.foldl processEntry [])

/-- The persisted records belonging to a given effective group name. -/
def groupRecords (n : List Nat) (es : List ParquetLogEntry) : List ParquetLogEntry :=
  es.filter (fun e => effName e == n)

/-- C9 counterexample: for the two records with group `g` and timestamps 0
and 10^13 ms (within 64-bit range, but past the year-2262 limit of Go's
nanosecond representation), the multiplication by 10^6 wraps, so the single
summary's first-seen is a time before 1970 and does NOT equal the minimum
timestamp (0 ms) of the group's records, contradicting the claim. -/
theorem c9_overflow_counterexample :
    ListGroupsM [⟨0, [], [103], true, false, false, false, 0⟩,
                 ⟨10000000000000, [], [103], true, false, false, false, 0⟩] =
      [{ name := [103], entryCount := 2, firstSeen := -8446744073709551616,
         lastSeen := 0, commands := 0, progress := 0 }] ∧
    (groupRecords [103]
        [⟨0, [], [103], true, false, false, false, 0⟩,
         ⟨10000000000000, [], [103], true, false, false, false, 0⟩]).map
        ParquetLogEntry.timestamp = [0, 10000000000000] ∧
    ¬∃ m : Int, m ∈ ([0, 10000000000000] : List Int) ∧
        (∀ t ∈ ([0, 10000000000000] : List Int), m ≤ t) ∧
        (-8446744073709551616 : Int) = 1000000 * m := by
  refine ⟨by decide, by decide, ?_⟩
  rintro ⟨m, hm, _, heq⟩
  simp only [List.mem_cons, List.not_mem_nil, or_false] at hm
  rcases hm with rfl | rfl <;> omega

/-- Running minimum as `ListGroups` computes it: start at the first value,
replace whenever a strictly smaller one arrives (`Before`). -/
def nsMin : List Int → Int
  | [] => 0
  | x :: xs => xs.foldl (fun a b => if b < a then b else a) x

/-- Running maximum as `ListGroups` computes it: start at the first value,
replace whenever a strictly larger one arrives (`After`). -/
def nsMax : List Int → Int
  | [] => 0
  | x :: xs => xs.foldl (fun a b => if a < b then b else a) x

theorem nsMin_spec :
    ∀ (xs : List Int) (x : Int),
      nsMin (x :: xs) ∈ x :: xs ∧ ∀ y ∈ x :: xs, nsMin (x :: xs) ≤ y := by
  intro xs
  induction xs with
  | nil =>
    intro x
    refine ⟨List.mem_singleton_self x, ?_⟩
    intro y hy
    rw [List.mem_singleton] at hy
    rw [hy]
    exact le_refl x
  | cons y ys ih =>
    intro x
    by_cases hxy : y < x
    · have h0 : nsMin (x :: y :: ys) = nsMin (y :: ys) := by
        simp [nsMin, List.foldl_cons, hxy]
      obtain ⟨hmem, hle⟩ := ih y
      rw [h0]
      refine ⟨List.mem_cons_of_mem x hmem, ?_⟩
      intro w hw
      rcases List.mem_cons.mp hw with rfl | hw2
      · have := hle y (List.mem_cons_self y ys)
        omega
      · exact hle w hw2
    · have h0 : nsMin (x :: y :: ys) = nsMin (x :: ys) := by
        simp [nsMin, List.foldl_cons, hxy]
      obtain ⟨hmem, hle⟩ := ih x
      rw [h0]
      constructor
      · rcases List.mem_cons.mp hmem with h | h
        · rw [h]
          exact List.mem_cons_self x (y :: ys)
        · exact List.mem_cons_of_mem x (List.mem_cons_of_mem y h)
      · intro w hw
        rcases List.mem_cons.mp hw with rfl | hw2
        · exact hle w (List.mem_cons_self w ys)
        rcases List.mem_cons.mp hw2 with rfl | hw3
        · have := hle x (List.mem_cons_self x ys)
          omega
        · exact hle w (List.mem_cons_of_mem x hw3)
theorem nsMax_spec :
    ∀ (xs : List Int) (x : Int),
      nsMax (x :: xs) ∈ x :: xs ∧ ∀ y ∈ x :: xs, y ≤ nsMax (x :: xs) := by
  intro xs
  induction xs with
  | nil =>
    intro x
    refine ⟨List.mem_singleton_self x, ?_⟩
    intro y hy
    rw [List.mem_singleton] at hy
    rw [hy]
    exact le_refl x
  | cons y ys ih =>
    intro x
    by_cases hxy : x < y
    · have h0 : nsMax (x :: y :: ys) = nsMax (y :: ys) := by
        simp [nsMax, List.foldl_cons, hxy]
      obtain ⟨hmem, hle⟩ := ih y
      rw [h0]
      refine ⟨List.mem_cons_of_mem x hmem, ?_⟩
      intro w hw
      rcases List.mem_cons.mp hw with rfl | hw2
      · have := hle y (List.mem_cons_self y ys)
        omega
      · exact hle w hw2
    · have h0 : nsMax (x :: y :: ys) = nsMax (x :: ys) := by
        simp [nsMax, List.foldl_cons, hxy]
      obtain ⟨hmem, hle⟩ := ih x
      rw [h0]
      constructor
      · rcases List.mem_cons.mp hmem with h | h
        · rw [h]
          exact List.mem_cons_self x (y :: ys)
        · exact List.mem_cons_of_mem x (List.mem_cons_of_mem y h)
      · intro w hw
        rcases List.mem_cons.mp hw with rfl | hw2
        · exact hle w (List.mem_cons_self w ys)
        rcases List.mem_cons.mp hw2 with rfl | hw3
        · have := hle x (List.mem_cons_self x ys)
          omega
        · exact hle w (List.mem_cons_of_mem x hw3)

theorem nsMin_concat (x : Int) (xs : List Int) (v : Int) :
    nsMin (x :: xs ++ [v]) = if v < nsMin (x :: xs) then v else nsMin (x :: xs) := by
  simp [nsMin, List.foldl_append]

theorem nsMax_concat (x : Int) (xs : List Int) (v : Int) :
    nsMax (x :: xs ++ [v]) = if nsMax (x :: xs) < v then v else nsMax (x :: xs) := by
  simp [nsMax, List.foldl_append]

theorem wrap64_eq_self (x : Int) (h1 : -9223372036854775808 ≤ x)
    (h2 : x < 9223372036854775808) : wrap64 x = x := by
  have hp : wrap64 x =
      (x + 9223372036854775808) % 18446744073709551616 - 9223372036854775808 := by
    norm_num [wrap64]
  rw [hp, Int.emod_eq_of_lt (by omega) (by omega)]
  omega

theorem entryNs_eq (e : ParquetLogEntry) (h1 : -9223372036854 ≤ e.timestamp)
    (h2 : e.timestamp ≤ 9223372036854) : entryNs e = 1000000 * e.timestamp := by
  rw [entryNs, wrap64_eq_self _ (by omega) (by omega)]
  ring

theorem insertByFirst_perm (g : GroupInfo) :
    ∀ l : List GroupInfo, (insertByFirst g l).Perm (g :: l) := by
  intro l
  induction l with
  | nil => exact List.Perm.refl _
  | cons h t ih =>
    rw [insertByFirst]
    split
    · exact List.Perm.refl _
    · exact (ih.cons h).trans (List.Perm.swap g h t)

theorem sortByFirst_perm : ∀ l : List GroupInfo, (sortByFirst l).Perm l := by
  intro l
  induction l with
  | nil => exact List.Perm.refl _
  | cons h t ih => exact (insertByFirst_perm h (sortByFirst t)).trans (ih.cons h)

theorem insertByFirst_pairwise (g : GroupInfo) :
    ∀ l : List GroupInfo, l.Pairwise (fun a b => a.firstSeen ≤ b.firstSeen) →
      (insertByFirst g l).Pairwise (fun a b => a.firstSeen ≤ b.firstSeen) := by
  intro l
  induction l with
  | nil =>
    intro _
    exact List.pairwise_singleton _ g
  | cons h t ih =>
    intro hp
    obtain ⟨hh, ht⟩ := List.pairwise_cons.mp hp
    rw [insertByFirst]
    split
    · rename_i hle
      refine List.pairwise_cons.mpr ⟨?_, hp⟩
      intro b hb
      rcases List.mem_cons.mp hb with rfl | hb2
      · exact hle
      · exact le_trans hle (hh b hb2)
    · rename_i hgt
      refine List.pairwise_cons.mpr ⟨?_, ih ht⟩
      intro b hb
      have hb3 := (insertByFirst_perm g t).mem_iff.mp hb
      rcases List.mem_cons.mp hb3 with rfl | hb4
      · omega
      · exact hh b hb4

theorem sortByFirst_pairwise :
    ∀ l : List GroupInfo,
      (sortByFirst l).Pairwise (fun a b => a.firstSeen ≤ b.firstSeen) := by
  intro l
  induction l with
  | nil => exact List.Pairwise.nil
  | cons h t ih => exact insertByFirst_pairwise h (sortByFirst t) ih

/-- The aggregate a summary must carry over a record list: count of the
group's records, counts of its command and progress flags, and the running
minimum and maximum of their stored times. -/
def AggOK (es : List ParquetLogEntry) (inf : GroupInfo) : Prop :=
  inf.entryCount = (groupRecords inf.name es).length ∧
  inf.commands = (groupRecords inf.name es).countP (fun e => e.isCommand) ∧
  inf.progress = (groupRecords inf.name es).countP (fun e => e.isProgress) ∧
  inf.firstSeen = nsMin ((groupRecords inf.name es).map entryNs) ∧
  inf.lastSeen = nsMax ((groupRecords inf.name es).map entryNs)

theorem updInfo_name (e : ParquetLogEntry) (i : GroupInfo) : (updInfo e i).name = i.name :=
  rfl

theorem names_map_upd (e : ParquetLogEntry) :
    ∀ acc : List GroupInfo,
      ((acc.map (fun i => if i.name = effName e then updInfo e i else i)).map GroupInfo.name) =
        acc.map GroupInfo.name := by
  intro acc
  induction acc with
  | nil => rfl
  | cons i t ih =>
    simp only [List.map_cons, ih]
    congr 1
    split <;> rfl

theorem fold_invariant (es : List ParquetLogEntry) :
    ((es.foldl processEntry []).map GroupInfo.name).Nodup ∧
    (∀ n : List Nat,
      (∃ i ∈ es.foldl processEntry [], i.name = n) ↔ ∃ e ∈ es, effName e = n) ∧
    (∀ i ∈ es.foldl processEntry [], AggOK es i) := by
  induction es using List.reverseRecOn with
  | nil =>
    refine ⟨List.nodup_nil, ?_, ?_⟩
    · intro n
      simp
    · intro i hi
      simp at hi
  | append_singleton ds e ih =>
    obtain ⟨ihnodup, ihiff, ihagg⟩ := ih
    rw [List.foldl_append, List.foldl_cons, List.foldl_nil]
    by_cases hany : (ds.foldl processEntry []).any (fun i => i.name == effName e) = true
    · -- the group already has a summary: the matching one is updated in place
      have hproc : processEntry (ds.foldl processEntry []) e =
          (ds.foldl processEntry []).map
            (fun i => if i.name = effName e then updInfo e i else i) := by
        rw [processEntry, if_pos hany]
      have hexist : ∃ d ∈ ds, effName d = effName e := by
        obtain ⟨i, hi, hieq⟩ := List.any_eq_true.mp hany
        exact (ihiff (effName e)).mp ⟨i, hi, by simpa using hieq⟩
      rw [hproc]
      refine ⟨by rw [names_map_upd]; exact ihnodup, ?_, ?_⟩
      · intro n
        constructor
        · rintro ⟨j, hj, rfl⟩
          obtain ⟨i, hi, hj2⟩ := List.mem_map.mp hj
          have hname : j.name = i.name := by
            rw [← hj2]
            split <;> rfl
          obtain ⟨d, hd, hdn⟩ := (ihiff j.name).mp ⟨i, hi, hname.symm⟩
          exact ⟨d, List.mem_append_left _ hd, hdn⟩
        · rintro ⟨d, hd, hdn⟩
          rcases List.mem_append.mp hd with hd2 | hd2
          · obtain ⟨i, hi, hin⟩ := (ihiff n).mpr ⟨d, hd2, hdn⟩
            refine ⟨(if i.name = effName e then updInfo e i else i),
              List.mem_map_of_mem _ hi, ?_⟩
            split <;> simp [updInfo_name, hin]
          · rw [List.mem_singleton] at hd2
            rw [hd2] at hdn
            obtain ⟨i, hi, hin⟩ := (ihiff (effName e)).mpr hexist
            refine ⟨(if i.name = effName e then updInfo e i else i),
              List.mem_map_of_mem _ hi, ?_⟩
            split <;> simp [updInfo_name, hin, hdn]
      · intro j hj
        obtain ⟨i, hi, hj2⟩ := List.mem_map.mp hj
        by_cases hname : i.name = effName e
        · rw [if_pos hname] at hj2
          subst hj2
          obtain ⟨hc, hcm, hpr, hfs, hls⟩ := ihagg i hi
          have hgr : groupRecords i.name (ds ++ [e]) = groupRecords i.name ds ++ [e] := by
            simp [groupRecords, List.filter_append, hname]
          obtain ⟨g0, gs, hcons⟩ : ∃ g0 gs, groupRecords i.name ds = g0 :: gs := by
            obtain ⟨d, hd, hdn⟩ := hexist
            have hdmem : d ∈ groupRecords i.name ds :=
              List.mem_filter.mpr ⟨hd, by simp [hdn, hname]⟩
            cases hgr0 : groupRecords i.name ds with
            | nil =>
              rw [hgr0] at hdmem
              exact absurd hdmem (List.not_mem_nil d)
            | cons g0 gs => exact ⟨g0, gs, rfl⟩
          rw [hcons] at hc hcm hpr hfs hls
          simp only [AggOK, updInfo_name, hgr, hcons]
          refine ⟨?_, ?_, ?_, ?_, ?_⟩
          · simp [updInfo, hc]
          · simp only [updInfo, hcm, List.countP_append, List.countP_cons,
              List.countP_nil, Nat.zero_add]
          · simp only [updInfo, hpr, List.countP_append, List.countP_cons,
              List.countP_nil, Nat.zero_add]
          · simp only [List.map_append, List.map_cons, List.map_nil, nsMin_concat]
            rw [← List.map_cons entryNs g0 gs]
            show (if entryNs e < i.firstSeen then entryNs e else i.firstSeen) = _
            rw [hfs]
          · simp only [List.map_append, List.map_cons, List.map_nil, nsMax_concat]
            rw [← List.map_cons entryNs g0 gs]
            show (if i.lastSeen < entryNs e then entryNs e else i.lastSeen) = _
            rw [hls]
        · rw [if_neg hname] at hj2
          subst hj2
          have hne2 : ¬ (effName e = i.name) := fun h => hname h.symm
          have hgr : groupRecords i.name (ds ++ [e]) = groupRecords i.name ds := by
            simp [groupRecords, List.filter_append, hne2]
          have := ihagg i hi
          simp only [AggOK, hgr] at *
          exact this
    · -- first record of this group: a fresh summary is appended
      have hproc : processEntry (ds.foldl processEntry []) e =
          ds.foldl processEntry [] ++ [updInfo e (initInfo (effName e) e)] := by
        rw [processEntry, if_neg hany]
      have hnone : ¬ ∃ d ∈ ds, effName d = effName e := by
        intro hex
        obtain ⟨i, hi, hin⟩ := (ihiff (effName e)).mpr hex
        exact hany (List.any_eq_true.mpr ⟨i, hi, by simp [hin]⟩)
      have hnotin : effName e ∉ (ds.foldl processEntry []).map GroupInfo.name := by
        intro hmem
        obtain ⟨i, hi, hieq⟩ := List.mem_map.mp hmem
        exact hany (List.any_eq_true.mpr ⟨i, hi, by simp [hieq]⟩)
      have hgr0 : groupRecords (effName e) ds = [] := by
        rw [groupRecords, List.filter_eq_nil_iff]
        intro d hd
        simp only [beq_iff_eq]
        exact fun h => hnone ⟨d, hd, h⟩
      rw [hproc]
      refine ⟨?_, ?_, ?_⟩
      · rw [List.map_append]
        rw [List.nodup_append]
        refine ⟨ihnodup, List.nodup_singleton _, ?_⟩
        intro a ha hb
        simp only [List.map_cons, List.map_nil, List.mem_singleton] at hb
        subst hb
        exact hnotin ha
      · intro n
        constructor
        · rintro ⟨j, hj, rfl⟩
          rcases List.mem_append.mp hj with hj2 | hj2
          · obtain ⟨d, hd, hdn⟩ := (ihiff j.name).mp ⟨j, hj2, rfl⟩
            exact ⟨d, List.mem_append_left _ hd, hdn⟩
          · rw [List.mem_singleton] at hj2
            subst hj2
            exact ⟨e, List.mem_append_right _ (List.mem_singleton_self e), rfl⟩
        · rintro ⟨d, hd, hdn⟩
          rcases List.mem_append.mp hd with hd2 | hd2
          · obtain ⟨i, hi, hin⟩ := (ihiff n).mpr ⟨d, hd2, hdn⟩
            exact ⟨i, List.mem_append_left _ hi, hin⟩
          · rw [List.mem_singleton] at hd2
            rw [hd2] at hdn
            refine ⟨updInfo e (initInfo (effName e) e),
              List.mem_append_right _ (List.mem_singleton_self _), hdn⟩
      · intro j hj
        rcases List.mem_append.mp hj with hj2 | hj2
        · have hjn : j.name ≠ effName e := by
            intro h
            exact hnotin (h ▸ List.mem_map_of_mem GroupInfo.name hj2)
          have hne2 : ¬ (effName e = j.name) := fun h => hjn h.symm
          have hgr : groupRecords j.name (ds ++ [e]) = groupRecords j.name ds := by
            simp [groupRecords, List.filter_append, hne2]
          have := ihagg j hj2
          simp only [AggOK, hgr] at *
          exact this
        · rw [List.mem_singleton] at hj2
          subst hj2
          have hgr : groupRecords (effName e) (ds ++ [e]) = [e] := by
            rw [groupRecords, List.filter_append]
            have h1 : List.filter (fun d => effName d == effName e) ds = [] := hgr0
            rw [h1]
            simp
          simp only [AggOK, updInfo_name, initInfo, hgr]
          refine ⟨rfl, ?_, ?_, ?_, ?_⟩
          · simp [updInfo, List.countP_cons]
          · simp [updInfo, List.countP_cons]
          · simp [updInfo, initInfo, nsMin, lt_irrefl]
          · simp [updInfo, initInfo, nsMax, lt_irrefl]

/-- C9 (amended): provided every record's timestamp lies within the range
whose nanosecond count fits in a 64-bit integer (|ms| ≤ 9223372036854, about
year 2262 — outside it the conversion to `time.Time` wraps, see the
counterexample), `ListGroups` returns exactly one summary per distinct
effective group name occurring in the input (empty group counted as
`<no group>`), each summary counting that group's records and its command
and progress flags, with first-seen and last-seen equal to the minimum and
maximum timestamp among that group's records, and the summaries ordered by
first-seen ascending. -/
theorem c9_list_groups :
    ∀ es : List ParquetLogEntry,
      (∀ e ∈ es, -9223372036854 ≤ e.timestamp ∧ e.timestamp ≤ 9223372036854) →
      ((ListGroupsM es).map GroupInfo.name).Nodup ∧
      (∀ n : List Nat, (∃ i ∈ ListGroupsM es, i.name = n) ↔ ∃ e ∈ es, effName e = n) ∧
      (∀ i ∈ ListGroupsM es,
        i.entryCount = (groupRecords i.name es).length ∧
        i.commands = (groupRecords i.name es).countP (fun e => e.isCommand) ∧
        i.progress = (groupRecords i.name es).countP (fun e => e.isProgress) ∧
        (∃ m ∈ (groupRecords i.name es).map ParquetLogEntry.timestamp,
          (∀ t ∈ (groupRecords i.name es).map ParquetLogEntry.timestamp, m ≤ t) ∧
          i.firstSeen = 1000000 * m) ∧
        (∃ m ∈ (groupRecords i.name es).map ParquetLogEntry.timestamp,
          (∀ t ∈ (groupRecords i.name es).map ParquetLogEntry.timestamp, t ≤ m) ∧
          i.lastSeen = 1000000 * m)) ∧
      (ListGroupsM es).Pairwise (fun a b => a.firstSeen ≤ b.firstSeen) := by
  intro es hrange
  obtain ⟨hnodup, hiff, hagg⟩ := fold_invariant es
  have hperm : (ListGroupsM es).Perm (es.foldl processEntry []) := sortByFirst_perm _
  refine ⟨?_, ?_, ?_, sortByFirst_pairwise _⟩
  · exact ((hperm.map GroupInfo.name).nodup_iff).mpr hnodup
  · intro n
    rw [← hiff n]
    constructor
    · rintro ⟨i, hi, h⟩
      exact ⟨i, hperm.mem_iff.mp hi, h⟩
    · rintro ⟨i, hi, h⟩
      exact ⟨i, hperm.mem_iff.mpr hi, h⟩
  · intro i hi
    have hi2 : i ∈ es.foldl processEntry [] := hperm.mem_iff.mp hi
    obtain ⟨hc, hcm, hpr, hfs, hls⟩ := hagg i hi2
    refine ⟨hc, hcm, hpr, ?_, ?_⟩
    all_goals
      obtain ⟨d0, hd0, hd0n⟩ := (hiff i.name).mp ⟨i, hi2, rfl⟩
      have hd0mem : d0 ∈ groupRecords i.name es :=
        List.mem_filter.mpr ⟨hd0, by simp [hd0n]⟩
      obtain ⟨g0, gt, hcons⟩ : ∃ g0 gt, groupRecords i.name es = g0 :: gt := by
        cases hx : groupRecords i.name es with
        | nil =>
          rw [hx] at hd0mem
          exact absurd hd0mem (List.not_mem_nil d0)
        | cons a b => exact ⟨a, b, rfl⟩
    · rw [hcons] at hfs
      rw [hcons]
      obtain ⟨hmem, hbnd⟩ := nsMin_spec (gt.map entryNs) (entryNs g0)
      rw [← List.map_cons entryNs g0 gt] at hmem hbnd
      obtain ⟨d, hd, hdeq⟩ := List.mem_map.mp hmem
      have hdes : d ∈ es := by
        have hd2 : d ∈ groupRecords i.name es := by
          rw [hcons]
          exact hd
        exact (List.mem_filter.mp hd2).1
      obtain ⟨hr1, hr2⟩ := hrange d hdes
      refine ⟨d.timestamp, List.mem_map_of_mem _ hd, ?_, ?_⟩
      · intro t ht
        obtain ⟨d2, hd2, hd2eq⟩ := List.mem_map.mp ht
        have hd2es : d2 ∈ es := by
          have hd3 : d2 ∈ groupRecords i.name es := by
            rw [hcons]
            exact hd2
          exact (List.mem_filter.mp hd3).1
        obtain ⟨hs1, hs2⟩ := hrange d2 hd2es
        have hb := hbnd (entryNs d2) (List.mem_map_of_mem _ hd2)
        rw [← hdeq, entryNs_eq d hr1 hr2, entryNs_eq d2 hs1 hs2] at hb
        rw [← hd2eq]
        omega
      · rw [hfs, ← hdeq, entryNs_eq d hr1 hr2]
    · rw [hcons] at hls
      rw [hcons]
      obtain ⟨hmem, hbnd⟩ := nsMax_spec (gt.map entryNs) (entryNs g0)
      rw [← List.map_cons entryNs g0 gt] at hmem hbnd
      obtain ⟨d, hd, hdeq⟩ := List.mem_map.mp hmem
      have hdes : d ∈ es := by
        have hd2 : d ∈ groupRecords i.name es := by
          rw [hcons]
          exact hd
        exact (List.mem_filter.mp hd2).1
      obtain ⟨hr1, hr2⟩ := hrange d hdes
      refine ⟨d.timestamp, List.mem_map_of_mem _ hd, ?_, ?_⟩
      · intro t ht
        obtain ⟨d2, hd2, hd2eq⟩ := List.mem_map.mp ht
        have hd2es : d2 ∈ es := by
          have hd3 : d2 ∈ groupRecords i.name es := by
            rw [hcons]
            exact hd2
          exact (List.mem_filter.mp hd3).1
        obtain ⟨hs1, hs2⟩ := hrange d2 hd2es
        have hb := hbnd (entryNs d2) (List.mem_map_of_mem _ hd2)
        rw [← hdeq, entryNs_eq d hr1 hr2, entryNs_eq d2 hs1 hs2] at hb
        rw [← hd2eq]
        omega
      · rw [hls, ← hdeq, entryNs_eq d hr1 hr2]

/-- Witness for the amended C9 at a single command record with timestamp
5 ms in group `g`. -/
theorem c9_list_groups_witness :
    ((ListGroupsM [⟨5, [], [103], true, true, false, false, 0⟩]).map GroupInfo.name).Nodup ∧
    (∀ n : List Nat,
      (∃ i ∈ ListGroupsM [⟨5, [], [103], true, true, false, false, 0⟩], i.name = n) ↔
        ∃ e ∈ [(⟨5, [], [103], true, true, false, false, 0⟩ : ParquetLogEntry)],
          effName e = n) ∧
    (∀ i ∈ ListGroupsM [⟨5, [], [103], true, true, false, false, 0⟩],
      i.entryCount =
        (groupRecords i.name [⟨5, [], [103], true, true, false, false, 0⟩]).length ∧
      i.commands =
        (groupRecords i.name [⟨5, [], [103], true, true, false, false, 0⟩]).countP
          (fun e => e.isCommand) ∧
      i.progress =
        (groupRecords i.name [⟨5, [], [103], true, true, false, false, 0⟩]).countP
          (fun e => e.isProgress) ∧
      (∃ m ∈ (groupRecords i.name [⟨5, [], [103], true, true, false, false, 0⟩]).map
          ParquetLogEntry.timestamp,
        (∀ t ∈ (groupRecords i.name [⟨5, [], [103], true, true, false, false, 0⟩]).map
            ParquetLogEntry.timestamp, m ≤ t) ∧
        i.firstSeen = 1000000 * m) ∧
      (∃ m ∈ (groupRecords i.name [⟨5, [], [103], true, true, false, false, 0⟩]).map
          ParquetLogEntry.timestamp,
        (∀ t ∈ (groupRecords i.name [⟨5, [], [103], true, true, false, false, 0⟩]).map
            ParquetLogEntry.timestamp, t ≤ m) ∧
        i.lastSeen = 1000000 * m)) ∧
    (ListGroupsM [⟨5, [], [103], true, true, false, false, 0⟩]).Pairwise
      (fun a b => a.firstSeen ≤ b.firstSeen) :=
  c9_list_groups [⟨5, [], [103], true, true, false, false, 0⟩] (by decide)

end BKLogs
